import Mathlib

/-!
Verification development for the s3-vault-proxy repository.

Strings from the Go source are modelled as `List Char`; Go's
`http.Header` (`map[string][]string`) is modelled as an association
list whose iteration order is the list order.  Each definition below is
a direct translation of the correspondingly named Go function.
-/

set_option maxHeartbeats 1000000

/-- A Go string, modelled as a list of characters. -/
abbrev Str := List Char

/-- A Go `http.Header` (`map[string][]string`): an association list from
header names to value lists.  List order stands for map iteration order. -/
abbrev Headers := List (Str × List Str)

/-- ASCII lower-casing of one character (the byte-level case folding used
by Go for header names). -/
def toLowerChar (c : Char) : Char :=
  if 65 ≤ c.toNat ∧ c.toNat ≤ 90 then Char.ofNat (c.toNat + 32) else c

/-- ASCII upper-casing of one character. -/
def toUpperChar (c : Char) : Char :=
  if 97 ≤ c.toNat ∧ c.toNat ≤ 122 then Char.ofNat (c.toNat - 32) else c

/-- Go `strings.EqualFold` restricted to ASCII data (header names are
ASCII): case-insensitive equality. -/
def eqFold (a b : Str) : Bool :=
  decide (a.map toLowerChar = b.map toLowerChar)

/-- Raw map lookup: the value list stored under an exactly matching key. -/
def hLookup (k : Str) : Headers → Option (List Str)
  | [] => none
  | e :: t => if e.1 = k then some e.2 else hLookup k t

/-- Raw map assignment `m[k] = vs`: replaces the entry with exactly
matching key, or appends a new entry. -/
def hSetEntry (k : Str) (vs : List Str) : Headers → Headers
  | [] => [(k, vs)]
  | e :: t => if e.1 = k then (k, vs) :: t else e :: hSetEntry k vs t

/-- Raw map deletion `delete(m, k)`. -/
def hDel (k : Str) (h : Headers) : Headers :=
  h.filter (fun e => e.1 ≠ k)

/-- Go map update `m[k] = append(m[k], v)`, used by `extractHeaders`. -/
def hAppendVal (k : Str) (v : Str) : Headers → Headers
  | [] => [(k, [v])]
  | e :: t => if e.1 = k then (k, e.2 ++ [v]) :: t else e :: hAppendVal k v t

/-- Whether a byte may appear in a MIME header token
(net/textproto `validHeaderFieldByte`). -/
def isTokenChar (c : Char) : Bool :=
  let n := c.toNat
  decide ((48 ≤ n ∧ n ≤ 57) ∨ (65 ≤ n ∧ n ≤ 90) ∨ (97 ≤ n ∧ n ≤ 122) ∨
    n = 33 ∨ n = 35 ∨ n = 36 ∨ n = 37 ∨ n = 38 ∨ n = 39 ∨ n = 42 ∨
    n = 43 ∨ n = 45 ∨ n = 46 ∨ n = 94 ∨ n = 95 ∨ n = 96 ∨ n = 124 ∨ n = 126)

/-- Case transformation pass of net/textproto `canonicalMIMEHeaderKey`:
upper-case the first letter and every letter following a dash,
lower-case all other letters. -/
def canonAux : Bool → Str → Str
  | _, [] => []
  | up, c :: cs =>
    let c2 := if up then toUpperChar c else toLowerChar c
    c2 :: canonAux (decide (c2 = '-')) cs

/-- Go `textproto.CanonicalMIMEHeaderKey`: canonicalise a header key,
returning it unchanged when it contains a non-token byte. -/
def canonicalKey (k : Str) : Str :=
  if k.all isTokenChar then canonAux true k else k

/-- Go `http.Header.Get`: first value stored under the canonicalised
key, or the empty string. -/
def hGet (k : Str) (h : Headers) : Str :=
  match hLookup (canonicalKey k) h with
  | some (v :: _) => v
  | _ => []

/-- Go `http.Header.Set`: store a single value under the canonicalised key. -/
def hSet (k v : Str) (h : Headers) : Headers :=
  hSetEntry (canonicalKey k) [v] h

/-- Go `http.Header.Del`: delete the canonicalised key. -/
def hDelH (k : Str) (h : Headers) : Headers :=
  hDel (canonicalKey k) h

/-- Go `strconv.ParseInt(s, 10, 64)` as a partial function: optional
sign, at least one decimal digit, result within the signed 64-bit range. -/
def parseInt64 (s : Str) : Option Int :=
  match s with
  | [] => none
  | c :: rest =>
    let p : Bool × Str :=
      if c = '-' then (true, rest) else if c = '+' then (false, rest) else (false, s)
    let neg := p.1
    let digits := p.2
    if digits = [] then none
    else if digits.all (fun d => decide (48 ≤ d.toNat ∧ d.toNat ≤ 57)) then
      let n : Nat := digits.foldl (fun a d => a * 10 + (d.toNat - 48)) 0
      if neg then
        if n ≤ 2 ^ 63 then some (-(n : Int)) else none
      else
        if n < 2 ^ 63 then some (n : Int) else none
    else none

/-- Scan for the first "://" in a URL and return what follows it. -/
def afterSchemeAux : Str → Option Str
  | [] => none
  | c :: t =>
    if c = ':' ∧ t.take 2 = ['/', '/'] then some (t.drop 2) else afterSchemeAux t

/-- The authority (host, with port) of a URL: what stands between the
scheme separator and the first path, query or fragment delimiter.  This
is the `u.Host` that `http.NewRequest` installs as the request host. -/
def hostOfUrl (u : Str) : Str :=
  ((afterSchemeAux u).getD u).takeWhile (fun c => decide (c ≠ '/' ∧ c ≠ '?' ∧ c ≠ '#'))

/-- The outbound `*http.Request` as far as the claims observe it: the
request URL, the transport-level host (`req.Host`), the header map and
the numeric `req.ContentLength` field. -/
structure OutReq where
  url : Str
  host : Str
  header : Headers
  contentLength : Int
deriving Repr, DecidableEq

/-- The fixed deny-list inside `isHopByHopHeader` (s3 client, current
revision in part_001). -/
def hopByHopNames : List Str :=
  ["Connection".toList, "Transfer-Encoding".toList, "Upgrade".toList,
   "Proxy-Connection".toList, "TE".toList, "Trailer".toList, "Keep-Alive".toList,
   "Cf-Visitor".toList, "X-Forwarded-Host".toList, "X-Forwarded-Port".toList,
   "X-Forwarded-For".toList, "X-Real-Ip".toList, "X-Request-Id".toList,
   "Cf-Connecting-Ip".toList, "Cf-Ipcountry".toList, "Cf-Ray".toList,
   "Cdn-Loop".toList]

/-- Go `(*Client).isHopByHopHeader`: case-insensitive membership in the
deny-list. -/
def isHopByHopHeader (header : Str) : Bool :=
  hopByHopNames.any (fun h => eqFold header h)

/-- The literal byte string "host" used in the `strings.EqualFold(key, "host")`
capture test. -/
def hostFoldLit : Str := "host".toList

/-- The literal byte string "Host" used in the raw assignment
`req.Header["Host"] = ...`. -/
def hostLit : Str := "Host".toList

/-- The loop body of `copyHeaders` (part_001 revision): walk the inbound
header map in iteration order; skip empty value lists; capture the last
case-insensitive host value seen; skip deny-listed names; otherwise copy
the first value under the exact inbound key by raw map assignment.
Returns the accumulated outbound header map and the captured host. -/
def copyHeadersAux : Headers → Headers → Str → Headers × Str
  | [], acc, oh => (acc, oh)
  | (k, vs) :: t, acc, oh =>
    match vs with
    | [] => copyHeadersAux t acc oh
    | v :: _ =>
      let oh2 := if eqFold k hostFoldLit then v else oh
      if isHopByHopHeader k then copyHeadersAux t acc oh2
      else copyHeadersAux t (hSetEntry k [v] acc) oh2

/-- The host value captured by the `copyHeaders` loop: the first value of
the last inbound entry whose name case-insensitively equals "host". -/
def capturedHost (oh : Str) : Headers → Str
  | [] => oh
  | (k, vs) :: t =>
    match vs with
    | [] => capturedHost oh t
    | v :: _ => capturedHost (if eqFold k hostFoldLit then v else oh) t

/-- Go `(*Client).copyHeaders` (part_001 revision): run the copy loop and,
when a host was captured, force both `req.Host` and the raw
`req.Header["Host"]` entry to the captured value. -/
def copyHeaders (req : OutReq) (headers : Headers) : OutReq :=
  let r := copyHeadersAux headers req.header []
  if r.2 ≠ [] then
    { req with host := r.2, header := hSetEntry hostLit [r.2] r.1 }
  else
    { req with header := r.1 }

/-- The literal header name "Content-Length". -/
def clLit : Str := "Content-Length".toList

/-- The literal header name "X-Forwarded-Proto". -/
def xfpLit : Str := "X-Forwarded-Proto".toList

/-- The literal header name "X-Forwarded-Scheme". -/
def xfsLit : Str := "X-Forwarded-Scheme".toList

/-- The literal header name "X-Scheme". -/
def xsLit : Str := "X-Scheme".toList

/-- The `fullURL` built at the top of `ForwardRequest`: the configured
endpoint plus path, plus "?" and the query string when non-empty. -/
def fwdUrl (endpoint path : Str) (queryString : Option Str) : Str :=
  endpoint ++ path ++
    (match queryString with
     | some q => if q ≠ [] then '?' :: q else []
     | none => [])

/-- The request returned by `http.NewRequest(method, fullURL, body)`: empty
header map, host taken from the URL and, for a `bytes.Reader` body, the
body length as `ContentLength` (`bodyLen` is `none` for a nil body, whose
`ContentLength` stays 0). -/
def fwdReq0 (endpoint path : Str) (bodyLen : Option Nat)
    (queryString : Option Str) : OutReq :=
  { url := fwdUrl endpoint path queryString,
    host := hostOfUrl (fwdUrl endpoint path queryString),
    header := [],
    contentLength := (bodyLen.getD 0 : Nat) }

/-- Go `(*Client).ForwardRequest` (part_001 revision), up to the point the
request is handed to the pooled HTTP client: build the URL, create the
request, copy the headers, re-apply the inbound `Content-Length` (header
and numeric field), and delete the three scheme-hint headers. -/
def forwardRequest (endpoint path : Str) (bodyLen : Option Nat)
    (headers : Headers) (queryString : Option Str) : OutReq :=
  let req1 := copyHeaders (fwdReq0 endpoint path bodyLen queryString) headers
  let ocl := hGet clLit headers
  let req2 :=
    if ocl ≠ [] then
      let r1 := { req1 with header := hSet clLit ocl req1.header }
      match parseInt64 ocl with
      | some n => { r1 with contentLength := n }
      | none => r1
    else req1
  { req2 with
    header := hDelH xsLit (hDelH xfsLit (hDelH xfpLit req2.header)) }

/-- Go `(*S3Handler).extractHeaders` (part_003): rebuild an `http.Header`
from the raw inbound header lines by case-preserving append assignment. -/
def extractHeaders (lines : List (Str × Str)) : Headers :=
  lines.foldl (fun acc e => hAppendVal e.1 e.2 acc) []

/-- Go `strings.Split(s, sep)` for a one-character separator: cut `s` at
every occurrence of the character; always returns at least one piece. -/
def splitOnChar (c : Char) : Str → List Str
  | [] => [[]]
  | x :: xs =>
    match splitOnChar c xs with
    | [] => [[]]
    | h :: t => if x = c then [] :: h :: t else (x :: h) :: t

/-- Inverse of `splitOnChar`: re-join pieces with the separator. -/
def joinChar (c : Char) : List Str → Str
  | [] => []
  | [a] => a
  | a :: rest => a ++ c :: joinChar c rest

/-- The byte string "arn:aws:kms:" (the required ARN lead-in). -/
def arnLead : Str :=
  ['a', 'r', 'n', ':', 'a', 'w', 's', ':', 'k', 'm', 's', ':']

/-- The byte string "key" (the required first slash piece). -/
def keyLit : Str := ['k', 'e', 'y']

/-- Go `(*Client).ARNToVaultKey` (identical to `arnToVaultKey` in the
standalone revision): validate the ARN shape and derive the transit key
name.  Returns the Go pair `(string, error)` as a value together with an
error flag; every error path in the source returns the empty string. -/
def arnToVaultKey (arn : Str) : Str × Bool :=
  if arn = [] then ([], true)
  else if arnLead.isPrefixOf arn then
    let parts := splitOnChar ':' arn
    if parts.length = 6 then
      let region := parts.getD 3 []
      let account := parts.getD 4 []
      let keyPart := parts.getD 5 []
      let keyParts := splitOnChar '/' keyPart
      if keyParts.length = 2 ∧ keyParts.getD 0 [] = keyLit then
        let keyUUID := keyParts.getD 1 []
        if region = [] ∨ account = [] ∨ keyUUID = [] then ([], true)
        else (region ++ '_' :: account ++ '_' :: keyUUID, false)
      else ([], true)
    else ([], true)
  else ([], true)

/-- The `types.ObjectMetadata` record stored in a sidecar object. -/
structure ObjectMetadata where
  contentLength : Int
  contentType : Str
  etag : Str
  lastModified : Str
  kmsKeyARN : Str
deriving Repr, DecidableEq

/-- The error taxonomy of `(*Service).Get`. -/
inductive MetaErr where
  | notFound
  | accessDenied
  | getFailed (status : Nat)
  | unmarshalFailed
deriving Repr, DecidableEq

/-- Go `(*metadata.Service).Get`, given the backend response to the
sidecar GET (status code and body).  `dec` is the stand-in for
`json.Unmarshal` into `ObjectMetadata`: `none` means the body fails to
deserialize.  404 maps to the not-found error, 403 to access denied, any
other status of at least 400 to a generic failure carrying the status; a
body that fails to deserialize is an error; otherwise the record. -/
def metaGet (dec : Str → Option ObjectMetadata) (status : Nat) (body : Str) :
    Except MetaErr ObjectMetadata :=
  if status = 404 then .error .notFound
  else if status = 403 then .error .accessDenied
  else if status ≥ 400 then .error (.getFailed status)
  else
    match dec body with
    | none => .error .unmarshalFailed
    | some m => .ok m

/-- One `types.Content` entry of a `ListBucketResult`. -/
structure Content where
  key : Str
  lastModified : Str
  etag : Str
  size : Int
  storageClass : Str
deriving Repr, DecidableEq

/-- The byte string ".metadata". -/
def metaSuffix : Str := ".metadata".toList

/-- Go `metadata.FilterMetadataObjects`: drop every entry whose key ends
with ".metadata", appending the survivors in order. -/
def FilterMetadataObjects (contents : List Content) : List Content :=
  contents.foldl
    (fun acc obj => if metaSuffix.isSuffixOf obj.key then acc else acc ++ [obj]) []

/-- The enrichment loop of `(*S3Handler).ListObjects` (part_003): filter
the parsed contents, then for each surviving entry overwrite its size
and ETag from the sidecar record when the metadata `get` succeeds and
leave the entry untouched on any error. -/
def enrichContents (get : Str → Except MetaErr ObjectMetadata)
    (contents : List Content) : List Content :=
  (FilterMetadataObjects contents).map (fun c =>
    match get c.key with
    | .ok m => { c with size := m.contentLength, etag := m.etag }
    | .error _ => c)

/-- The vault capabilities held by the handler (`vault.Interface`),
restricted to the operations `PutObject` could reach. -/
structure VaultOps where
  arnToKey : Str → Str × Bool
  encrypt : Str → Str → Option Str

/-- A backend response as `PutObject` observes it. -/
structure BackendResp where
  status : Nat
  headers : Headers
deriving Repr, DecidableEq

/-- What `PutObject` did, as far as the claims observe it: the client
status, the headers set on the client response, and the body bytes
forwarded to the backend (`none` when no backend PUT was issued). -/
structure PutOutcome where
  status : Nat
  responseHeaders : Headers
  forwardedBody : Option Str
deriving Repr, DecidableEq

/-- Fiber `c.Get` with header normalisation disabled: the value of the
first inbound header line whose name matches exactly. -/
def linePeek (k : Str) (lines : List (Str × Str)) : Str :=
  match lines.find? (fun e => decide (e.1 = k)) with
  | some e => e.2
  | none => []

/-- Go `(*S3Handler).getKMSKeyARN`: read the KMS ARN header under its
canonical spelling, then under its lower-case spelling; the empty string
is an error. -/
def getKMSKeyARN (lines : List (Str × Str)) : Option Str :=
  let a := linePeek "X-Amz-Server-Side-Encryption-Aws-Kms-Key-Id".toList lines
  let b := if a = [] then
    linePeek "x-amz-server-side-encryption-aws-kms-key-id".toList lines else a
  if b = [] then none else some b

/-- Fiber `c.Set` on the response (normalisation disabled): replace the
exactly matching response header, or append it. -/
def cSet (k v : Str) (h : Headers) : Headers :=
  hSetEntry k [v] h

/-- The literal response header name "x-amz-server-side-encryption". -/
def sseLit : Str := "x-amz-server-side-encryption".toList

/-- The literal response header name
"x-amz-server-side-encryption-aws-kms-key-id". -/
def sseKidLit : Str := "x-amz-server-side-encryption-aws-kms-key-id".toList

/-- Go `(*S3Handler).PutObject` (part_003): reject a missing bucket/key or
KMS ARN header or an invalid ARN with 400 before contacting the backend;
otherwise forward the body bytes unmodified; relay a backend error
status; on backend success copy the first value of each backend response
header onto the client response and then set the two SSE advertisement
headers.  `backend` returns `none` on a transport error (the 500 path). -/
def putObject (v : VaultOps) (backend : Str → Str → Option BackendResp)
    (bucket key : Str) (lines : List (Str × Str)) (body : Str) : PutOutcome :=
  if bucket = [] ∨ key = [] then ⟨400, [], none⟩
  else
    match getKMSKeyARN lines with
    | none => ⟨400, [], none⟩
    | some arn =>
      if (v.arnToKey arn).2 then ⟨400, [], none⟩
      else
        let path := '/' :: bucket ++ '/' :: key
        match backend path body with
        | none => ⟨500, [], some body⟩
        | some resp =>
          if resp.status ≥ 400 then ⟨resp.status, [], some body⟩
          else
            let h1 := resp.headers.foldl
              (fun acc e =>
                match e.2 with
                | [] => acc
                | v0 :: _ => cSet e.1 v0 acc) []
            let h2 := cSet sseLit "aws:kms".toList h1
            let h3 := cSet sseKidLit arn h2
            ⟨resp.status, h3, some body⟩

/-- The well-formed ARN shape "arn:aws:kms:R:A:key/U". -/
def arnOf (R A U : Str) : Str :=
  arnLead ++ (R ++ (':' :: (A ++ (':' :: (keyLit ++ ('/' :: U))))))

/-- A fresh outbound request with an empty header map, used to exercise
`copyHeaders` on concrete inputs. -/
def demoReq : OutReq :=
  { url := [], host := [], header := [], contentLength := 0 }

/-- A concrete sidecar metadata record for concrete evaluations. -/
def demoMeta : ObjectMetadata :=
  { contentLength := 10, contentType := "text/plain".toList,
    etag := "\"abc\"".toList, lastModified := [],
    kmsKeyARN := [] }

/-- Stand-in for `json.Unmarshal` representing a body that always
deserializes successfully (to `demoMeta`). -/
def demoDecode : Str → Option ObjectMetadata := fun _ => some demoMeta

/-- A listing entry for a managed object. -/
def demoC1 : Content :=
  { key := "file.txt".toList, lastModified := [], etag := "\"raw\"".toList,
    size := 111, storageClass := [] }

/-- The sidecar listing entry for `demoC1`. -/
def demoCMeta : Content :=
  { key := "file.txt.metadata".toList, lastModified := [], etag := [],
    size := 5, storageClass := [] }

/-- A listing entry for an unmanaged object. -/
def demoC2 : Content :=
  { key := "other".toList, lastModified := [], etag := "\"r2\"".toList,
    size := 222, storageClass := [] }

/-- A concrete parsed listing. -/
def demoContents : List Content := [demoC1, demoCMeta, demoC2]

/-- A concrete metadata getter: the managed key has a record, every other
key is missing. -/
def demoGet : Str → Except MetaErr ObjectMetadata := fun k =>
  if k = "file.txt".toList then .ok demoMeta else .error .notFound

/-- A concrete KMS ARN. -/
def demoArn : Str :=
  "arn:aws:kms:us-east-1:123456789012:key/12345678-1234-1234-1234-123456789012".toList

/-- Concrete vault capabilities built over the real ARN mapping. -/
def demoVault : VaultOps :=
  { arnToKey := arnToVaultKey, encrypt := fun _ _ => none }

/-- A concrete backend that accepts every PUT with a 200 and one header. -/
def demoBackend : Str → Str → Option BackendResp := fun _ _ =>
  some { status := 200, headers := [("ETag".toList, ["\"x\"".toList])] }

/-- The concrete inbound header lines of a PUT carrying `demoArn`. -/
def demoLines : List (Str × Str) :=
  [("X-Amz-Server-Side-Encryption-Aws-Kms-Key-Id".toList, demoArn)]

theorem hLookup_hSetEntry_self (k : Str) (vs : List Str) (h : Headers) :
    hLookup k (hSetEntry k vs h) = some vs := by
  induction h with
  | nil => simp [hSetEntry, hLookup]
  | cons e t ih =>
    by_cases he : e.1 = k
    · simp [hSetEntry, he, hLookup]
    · simp [hSetEntry, he, hLookup, ih]

theorem hLookup_hSetEntry_ne (k2 k : Str) (vs : List Str) (h : Headers)
    (hne : k2 ≠ k) : hLookup k2 (hSetEntry k vs h) = hLookup k2 h := by
  induction h with
  | nil => simp [hSetEntry, hLookup, Ne.symm hne]
  | cons e t ih =>
    by_cases he : e.1 = k
    · subst he
      simp [hSetEntry, hLookup, Ne.symm hne]
    · by_cases h2 : e.1 = k2
      · simp [hSetEntry, he, hLookup, h2, hne]
      · simp [hSetEntry, he, hLookup, h2, ih]

theorem hLookup_hDel_self (k : Str) (h : Headers) :
    hLookup k (hDel k h) = none := by
  induction h with
  | nil => simp [hDel, hLookup]
  | cons e t ih =>
    by_cases he : e.1 = k
    · simpa [hDel, he] using ih
    · simpa [hDel, he, hLookup] using ih

theorem hLookup_hDel_ne (k2 k : Str) (h : Headers) (hne : k2 ≠ k) :
    hLookup k2 (hDel k h) = hLookup k2 h := by
  induction h with
  | nil => simp [hDel, hLookup]
  | cons e t ih =>
    by_cases he : e.1 = k
    · subst he
      have h2 : e.1 ≠ k2 := Ne.symm hne
      simpa [hDel, hLookup, h2] using ih
    · by_cases h2 : e.1 = k2
      · simp [hDel, hLookup, he, h2, hne]
      · simpa [hDel, hLookup, he, h2] using ih

theorem mem_hSetEntry (k : Str) (vs : List Str) (h : Headers) (e : Str × List Str)
    (he : e ∈ hSetEntry k vs h) : e = (k, vs) ∨ e ∈ h := by
  induction h with
  | nil =>
    simp [hSetEntry] at he
    exact Or.inl he
  | cons e2 t ih =>
    by_cases h2 : e2.1 = k
    · simp [hSetEntry, h2] at he
      rcases he with he | he
      · exact Or.inl he
      · exact Or.inr (List.mem_cons_of_mem _ he)
    · simp [hSetEntry, h2] at he
      rcases he with he | he
      · exact Or.inr (by simp [he])
      · rcases ih he with h3 | h3
        · exact Or.inl h3
        · exact Or.inr (List.mem_cons_of_mem _ h3)

theorem copyHeadersAux_cons_skip (k : Str) (t : Headers) (acc : Headers) (oh : Str) :
    copyHeadersAux ((k, []) :: t) acc oh = copyHeadersAux t acc oh := rfl

theorem copyHeadersAux_cons_deny (k v : Str) (vrest : List Str) (t : Headers)
    (acc : Headers) (oh : Str) (hh : isHopByHopHeader k = true) :
    copyHeadersAux ((k, v :: vrest) :: t) acc oh =
      copyHeadersAux t acc (if eqFold k hostFoldLit then v else oh) := by
  simp [copyHeadersAux, hh]

theorem copyHeadersAux_cons_copy (k v : Str) (vrest : List Str) (t : Headers)
    (acc : Headers) (oh : Str) (hh : isHopByHopHeader k = false) :
    copyHeadersAux ((k, v :: vrest) :: t) acc oh =
      copyHeadersAux t (hSetEntry k [v] acc) (if eqFold k hostFoldLit then v else oh) := by
  simp [copyHeadersAux, hh]

theorem copyHeadersAux_snd (inb : Headers) (acc : Headers) (oh : Str) :
    (copyHeadersAux inb acc oh).2 = capturedHost oh inb := by
  induction inb generalizing acc oh with
  | nil => simp [copyHeadersAux, capturedHost]
  | cons e t ih =>
    obtain ⟨k, vs⟩ := e
    cases vs with
    | nil => simpa [copyHeadersAux, capturedHost] using ih acc oh
    | cons v vrest =>
      by_cases hh : isHopByHopHeader k
      · rw [copyHeadersAux_cons_deny k v vrest t acc oh hh]
        simpa [capturedHost] using ih acc _
      · rw [copyHeadersAux_cons_copy k v vrest t acc oh (by simpa using hh)]
        simpa [capturedHost] using ih (hSetEntry k [v] acc) _

theorem copyHeadersAux_lookup_denied (inb : Headers) (acc : Headers) (oh : Str)
    (k : Str) (hk : isHopByHopHeader k = true) (hacc : hLookup k acc = none) :
    hLookup k (copyHeadersAux inb acc oh).1 = none := by
  induction inb generalizing acc oh with
  | nil => simpa [copyHeadersAux]
  | cons e t ih =>
    obtain ⟨k1, vs⟩ := e
    cases vs with
    | nil => exact copyHeadersAux_cons_skip k1 t acc oh ▸ ih acc oh hacc
    | cons v vrest =>
      by_cases hh : isHopByHopHeader k1
      · rw [copyHeadersAux_cons_deny k1 v vrest t acc oh hh]
        exact ih acc _ hacc
      · rw [copyHeadersAux_cons_copy k1 v vrest t acc oh (by simpa using hh)]
        have hne : k ≠ k1 := by
          intro h
          rw [h] at hk
          simp [hk] at hh
        refine ih (hSetEntry k1 [v] acc) _ ?_
        rw [hLookup_hSetEntry_ne k k1 [v] acc hne]
        exact hacc

theorem copyHeadersAux_lookup_not_mem (inb : Headers) (acc : Headers) (oh : Str)
    (k : Str) (hk : k ∉ inb.map Prod.fst) :
    hLookup k (copyHeadersAux inb acc oh).1 = hLookup k acc := by
  induction inb generalizing acc oh with
  | nil => simp [copyHeadersAux]
  | cons e t ih =>
    obtain ⟨k1, vs⟩ := e
    simp only [List.map_cons, List.mem_cons] at hk
    push_neg at hk
    cases vs with
    | nil => exact copyHeadersAux_cons_skip k1 t acc oh ▸ ih acc oh hk.2
    | cons v vrest =>
      by_cases hh : isHopByHopHeader k1
      · rw [copyHeadersAux_cons_deny k1 v vrest t acc oh hh]
        exact ih acc _ hk.2
      · rw [copyHeadersAux_cons_copy k1 v vrest t acc oh (by simpa using hh)]
        rw [ih (hSetEntry k1 [v] acc) _ hk.2]
        exact hLookup_hSetEntry_ne k k1 [v] acc hk.1

theorem copyHeadersAux_lookup_mem (inb : Headers) (acc : Headers) (oh : Str)
    (k v : Str) (rest : List Str)
    (hnd : (inb.map Prod.fst).Nodup)
    (hk : hLookup k inb = some (v :: rest))
    (hdeny : isHopByHopHeader k = false) :
    hLookup k (copyHeadersAux inb acc oh).1 = some [v] := by
  induction inb generalizing acc oh with
  | nil => simp [hLookup] at hk
  | cons e t ih =>
    obtain ⟨k1, vs⟩ := e
    simp only [List.map_cons, List.nodup_cons] at hnd
    by_cases he : k1 = k
    · subst he
      have hvs : vs = v :: rest := by simpa [hLookup] using hk
      subst hvs
      rw [copyHeadersAux_cons_copy k1 v rest t acc oh hdeny]
      rw [copyHeadersAux_lookup_not_mem t _ _ k1 hnd.1]
      exact hLookup_hSetEntry_self k1 [v] acc
    · have hk2 : hLookup k t = some (v :: rest) := by
        simpa [hLookup, he] using hk
      cases vs with
      | nil => exact copyHeadersAux_cons_skip k1 t acc oh ▸ ih acc oh hnd.2 hk2
      | cons v1 vrest =>
        by_cases hh : isHopByHopHeader k1
        · rw [copyHeadersAux_cons_deny k1 v1 vrest t acc oh hh]
          exact ih acc _ hnd.2 hk2
        · rw [copyHeadersAux_cons_copy k1 v1 vrest t acc oh (by simpa using hh)]
          exact ih (hSetEntry k1 [v1] acc) _ hnd.2 hk2

theorem copyHeadersAux_singletons (inb : Headers) (acc : Headers) (oh : Str)
    (hacc : ∀ e ∈ acc, e.2.length = 1) :
    ∀ e ∈ (copyHeadersAux inb acc oh).1, e.2.length = 1 := by
  induction inb generalizing acc oh with
  | nil => simpa [copyHeadersAux] using hacc
  | cons e t ih =>
    obtain ⟨k1, vs⟩ := e
    cases vs with
    | nil => exact copyHeadersAux_cons_skip k1 t acc oh ▸ ih acc oh hacc
    | cons v vrest =>
      by_cases hh : isHopByHopHeader k1
      · rw [copyHeadersAux_cons_deny k1 v vrest t acc oh hh]
        exact ih acc _ hacc
      · rw [copyHeadersAux_cons_copy k1 v vrest t acc oh (by simpa using hh)]
        refine ih (hSetEntry k1 [v] acc) _ ?_
        intro e2 he2
        rcases mem_hSetEntry k1 [v] acc e2 he2 with h2 | h2
        · simp [h2]
        · exact hacc e2 h2

theorem capturedHost_no_host (hs : Headers) (oh : Str)
    (h : ∀ e ∈ hs, eqFold e.1 hostFoldLit = false) :
    capturedHost oh hs = oh := by
  induction hs generalizing oh with
  | nil => simp [capturedHost]
  | cons e t ih =>
    obtain ⟨k, vs⟩ := e
    have hk : eqFold k hostFoldLit = false := h (k, vs) (by simp)
    have ht : ∀ e ∈ t, eqFold e.1 hostFoldLit = false :=
      fun e he => h e (List.mem_cons_of_mem _ he)
    cases vs with
    | nil => simpa [capturedHost] using ih oh ht
    | cons v vrest => simpa [capturedHost, hk] using ih oh ht

theorem capturedHost_unique (hs : Headers) (oh : Str) (k v : Str) (rest : List Str)
    (h : hs.filter (fun e => eqFold e.1 hostFoldLit) = [(k, v :: rest)]) :
    capturedHost oh hs = v := by
  induction hs generalizing oh with
  | nil => simp at h
  | cons e t ih =>
    obtain ⟨k1, vs⟩ := e
    by_cases hk : eqFold k1 hostFoldLit
    · rw [List.filter_cons_of_pos (by simpa using hk)] at h
      simp only [List.cons_eq_cons] at h
      obtain ⟨h1, h2⟩ := h
      have hvs : vs = v :: rest := congrArg Prod.snd h1
      have hnone : ∀ e ∈ t, eqFold e.1 hostFoldLit = false := by
        intro e he
        by_contra hcon
        have hmem : e ∈ t.filter (fun e => eqFold e.1 hostFoldLit) :=
          List.mem_filter.mpr ⟨he, by simpa using hcon⟩
        rw [h2] at hmem
        simp at hmem
      subst hvs
      simp only [capturedHost, hk, if_pos]
      exact capturedHost_no_host t v hnone
    · rw [List.filter_cons_of_neg (by simpa using hk)] at h
      have hk2 : eqFold k1 hostFoldLit = false := by simpa using hk
      cases vs with
      | nil => simpa [capturedHost] using ih oh h
      | cons v1 vrest => simpa [capturedHost, hk2] using ih oh h
theorem copyHeaders_url (req : OutReq) (hs : Headers) :
    (copyHeaders req hs).url = req.url := by
  simp only [copyHeaders]
  split <;> rfl

theorem copyHeaders_contentLength (req : OutReq) (hs : Headers) :
    (copyHeaders req hs).contentLength = req.contentLength := by
  simp only [copyHeaders]
  split <;> rfl

theorem copyHeaders_host (req : OutReq) (hs : Headers) :
    (copyHeaders req hs).host =
      if capturedHost [] hs = [] then req.host else capturedHost [] hs := by
  simp only [copyHeaders, copyHeadersAux_snd]
  by_cases hch : capturedHost [] hs = [] <;> simp [hch]

theorem copyHeaders_header (req : OutReq) (hs : Headers) :
    (copyHeaders req hs).header =
      if capturedHost [] hs = [] then (copyHeadersAux hs req.header []).1
      else hSetEntry hostLit [capturedHost [] hs] (copyHeadersAux hs req.header []).1 := by
  simp only [copyHeaders, copyHeadersAux_snd]
  by_cases hch : capturedHost [] hs = [] <;> simp [hch]

theorem copyHeaders_lookup_first (req : OutReq) (hs : Headers) (k v : Str)
    (rest : List Str) (hreq : req.header = [])
    (hnd : (hs.map Prod.fst).Nodup)
    (hv : hLookup k hs = some (v :: rest))
    (hdeny : isHopByHopHeader k = false)
    (hhost : k = hostLit → capturedHost [] hs = v ∨ capturedHost [] hs = []) :
    hLookup k (copyHeaders req hs).header = some [v] := by
  rw [copyHeaders_header, hreq]
  by_cases hch : capturedHost [] hs = []
  · rw [if_pos hch]
    exact copyHeadersAux_lookup_mem hs [] [] k v rest hnd hv hdeny
  · rw [if_neg hch]
    by_cases hk : k = hostLit
    · subst hk
      rcases hhost rfl with he | he
      · rw [he]
        exact hLookup_hSetEntry_self hostLit [v] _
      · exact absurd he hch
    · rw [hLookup_hSetEntry_ne k hostLit _ _ hk]
      exact copyHeadersAux_lookup_mem hs [] [] k v rest hnd hv hdeny

theorem copyHeaders_lookup_denied (req : OutReq) (hs : Headers) (k : Str)
    (hreq : req.header = []) (hk : isHopByHopHeader k = true) :
    hLookup k (copyHeaders req hs).header = none := by
  have hne : k ≠ hostLit := by
    intro h
    rw [h] at hk
    exact absurd hk (by decide)
  rw [copyHeaders_header, hreq]
  by_cases hch : capturedHost [] hs = []
  · rw [if_pos hch]
    exact copyHeadersAux_lookup_denied hs [] [] k hk rfl
  · rw [if_neg hch, hLookup_hSetEntry_ne k hostLit _ _ hne]
    exact copyHeadersAux_lookup_denied hs [] [] k hk rfl

theorem copyHeaders_singletons (req : OutReq) (hs : Headers)
    (hreq : req.header = []) :
    ∀ e ∈ (copyHeaders req hs).header, e.2.length = 1 := by
  rw [copyHeaders_header, hreq]
  have haux : ∀ e ∈ (copyHeadersAux hs [] []).1, e.2.length = 1 :=
    copyHeadersAux_singletons hs [] [] (by simp)
  by_cases hch : capturedHost [] hs = []
  · rw [if_pos hch]
    exact haux
  · rw [if_neg hch]
    intro e he
    rcases mem_hSetEntry hostLit [capturedHost [] hs] _ e he with h2 | h2
    · simp [h2]
    · exact haux e h2

theorem canon_cl : canonicalKey clLit = clLit := by decide

theorem canon_xfp : canonicalKey xfpLit = xfpLit := by decide

theorem canon_xfs : canonicalKey xfsLit = xfsLit := by decide

theorem canon_xs : canonicalKey xsLit = xsLit := by decide

theorem forwardRequest_url (e p : Str) (b : Option Nat) (hs : Headers)
    (q : Option Str) : (forwardRequest e p b hs q).url = fwdUrl e p q := by
  simp only [forwardRequest]
  by_cases hcl : hGet clLit hs = []
  · simp [hcl, copyHeaders_url, fwdReq0]
  · cases hp : parseInt64 (hGet clLit hs) <;>
      simp [hcl, hp, copyHeaders_url, fwdReq0]

theorem forwardRequest_host (e p : Str) (b : Option Nat) (hs : Headers)
    (q : Option Str) :
    (forwardRequest e p b hs q).host = (copyHeaders (fwdReq0 e p b q) hs).host := by
  simp only [forwardRequest]
  by_cases hcl : hGet clLit hs = []
  · simp [hcl]
  · cases hp : parseInt64 (hGet clLit hs) <;> simp [hcl, hp]

theorem forwardRequest_header_eq (e p : Str) (b : Option Nat) (hs : Headers)
    (q : Option Str) :
    (forwardRequest e p b hs q).header =
      hDelH xsLit (hDelH xfsLit (hDelH xfpLit
        (if hGet clLit hs = [] then (copyHeaders (fwdReq0 e p b q) hs).header
         else hSet clLit (hGet clLit hs)
           (copyHeaders (fwdReq0 e p b q) hs).header))) := by
  simp only [forwardRequest]
  by_cases hcl : hGet clLit hs = []
  · simp [hcl]
  · cases hp : parseInt64 (hGet clLit hs) <;> simp [hcl, hp]

theorem forwardRequest_contentLength_parsed (e p : Str) (b : Option Nat)
    (hs : Headers) (q : Option Str) (n : Int)
    (hcl : hGet clLit hs ≠ []) (hp : parseInt64 (hGet clLit hs) = some n) :
    (forwardRequest e p b hs q).contentLength = n := by
  simp only [forwardRequest]
  simp [hcl, hp]

theorem forwardRequest_lookup (e p : Str) (b : Option Nat) (hs : Headers)
    (q : Option Str) (k : Str)
    (h1 : k ≠ clLit) (h2 : k ≠ xfpLit) (h3 : k ≠ xfsLit) (h4 : k ≠ xsLit) :
    hLookup k (forwardRequest e p b hs q).header =
      hLookup k (copyHeaders (fwdReq0 e p b q) hs).header := by
  rw [forwardRequest_header_eq]
  rw [hDelH, hDelH, hDelH, canon_xfp, canon_xfs, canon_xs]
  rw [hLookup_hDel_ne _ _ _ h4, hLookup_hDel_ne _ _ _ h3,
    hLookup_hDel_ne _ _ _ h2]
  by_cases hcl : hGet clLit hs = []
  · rw [if_pos hcl]
  · rw [if_neg hcl, hSet, canon_cl]
    exact hLookup_hSetEntry_ne k clLit _ _ h1

theorem splitOnChar_ne_nil (c : Char) (s : Str) : splitOnChar c s ≠ [] := by
  cases s with
  | nil => simp [splitOnChar]
  | cons x xs =>
    simp only [splitOnChar]
    cases splitOnChar c xs with
    | nil => simp
    | cons h t => by_cases hx : x = c <;> simp [hx]

theorem splitOnChar_not_mem (c : Char) (s : Str) (h : c ∉ s) :
    splitOnChar c s = [s] := by
  induction s with
  | nil => rfl
  | cons x xs ih =>
    simp only [List.mem_cons] at h
    push_neg at h
    simp [splitOnChar, ih h.2, Ne.symm h.1]

theorem splitOnChar_append (c : Char) (a b : Str) (h : c ∉ a) :
    splitOnChar c (a ++ c :: b) = a :: splitOnChar c b := by
  induction a with
  | nil =>
    simp only [List.nil_append]
    cases hsp : splitOnChar c b with
    | nil => exact absurd hsp (splitOnChar_ne_nil c b)
    | cons hh tt => simp [splitOnChar, hsp]
  | cons x xs ih =>
    simp only [List.mem_cons] at h
    push_neg at h
    have hrec := ih h.2
    cases hsp : splitOnChar c (xs ++ c :: b) with
    | nil => exact absurd hsp (splitOnChar_ne_nil _ _)
    | cons hh tt =>
      rw [hsp] at hrec
      obtain ⟨hh1, hh2⟩ := List.cons_eq_cons.mp hrec
      subst hh1
      subst hh2
      simp [splitOnChar, hsp, Ne.symm h.1]

theorem joinChar_cons_cons (c : Char) (a hh : Str) (t : List Str) :
    joinChar c (a :: hh :: t) = a ++ c :: joinChar c (hh :: t) := rfl

theorem joinChar_splitOnChar (c : Char) (s : Str) :
    joinChar c (splitOnChar c s) = s := by
  induction s with
  | nil => rfl
  | cons x xs ih =>
    cases hsp : splitOnChar c xs with
    | nil => exact absurd hsp (splitOnChar_ne_nil c xs)
    | cons hh tt =>
      rw [hsp] at ih
      by_cases hx : x = c
      · subst hx
        rw [show splitOnChar x (x :: xs) = [] :: hh :: tt from by
          simp [splitOnChar, hsp]]
        rw [joinChar_cons_cons]
        simpa using ih
      · simp only [splitOnChar, hsp, if_neg hx]
        cases tt with
        | nil => simpa [joinChar] using congrArg (x :: ·) ih
        | cons t0 t1 =>
          rw [joinChar_cons_cons]
          rw [joinChar_cons_cons] at ih
          simpa [List.cons_append] using congrArg (x :: ·) ih

theorem not_mem_of_mem_splitOnChar (c : Char) (s : Str) (p : Str)
    (hp : p ∈ splitOnChar c s) : c ∉ p := by
  induction s generalizing p with
  | nil =>
    simp [splitOnChar] at hp
    simp [hp]
  | cons x xs ih =>
    cases hsp : splitOnChar c xs with
    | nil => exact absurd hsp (splitOnChar_ne_nil c xs)
    | cons hh tt =>
      by_cases hx : x = c
      · subst hx
        simp only [splitOnChar, hsp, if_pos rfl] at hp
        rcases List.mem_cons.mp hp with h1 | h1
        · simp [h1]
        · exact ih p (hsp ▸ h1)
      · simp only [splitOnChar, hsp, if_neg hx] at hp
        rcases List.mem_cons.mp hp with h1 | h1
        · subst h1
          have hh2 : c ∉ hh := ih hh (hsp ▸ List.mem_cons_self hh tt)
          simp only [List.mem_cons]
          push_neg
          exact ⟨fun h2 => hx h2.symm, hh2⟩
        · exact ih p (hsp ▸ List.mem_cons_of_mem hh h1)

theorem exists_len2 (l : List Str) (h : l.length = 2) : ∃ a b, l = [a, b] := by
  obtain ⟨a, t1, rfl⟩ := List.exists_of_length_succ l h
  have h1 : t1.length = 1 := by simpa using h
  obtain ⟨b, t2, rfl⟩ := List.exists_of_length_succ t1 h1
  have h2 : t2.length = 0 := by simpa using h1
  rw [List.length_eq_zero.mp h2]
  exact ⟨a, b, rfl⟩

theorem exists_len3 (l : List Str) (h : l.length = 3) : ∃ a b c, l = [a, b, c] := by
  obtain ⟨a, t1, rfl⟩ := List.exists_of_length_succ l h
  have h1 : t1.length = 2 := by simpa using h
  obtain ⟨b, c, rfl⟩ := exists_len2 t1 h1
  exact ⟨a, b, c, rfl⟩

theorem split_arnLead (rest : Str) :
    splitOnChar ':' (arnLead ++ rest) =
      ['a', 'r', 'n'] :: ['a', 'w', 's'] :: ['k', 'm', 's'] :: splitOnChar ':' rest := by
  have h1 : arnLead ++ rest =
      ['a', 'r', 'n'] ++ ':' ::
        (['a', 'w', 's'] ++ ':' :: (['k', 'm', 's'] ++ ':' :: rest)) := rfl
  rw [h1, splitOnChar_append ':' ['a', 'r', 'n'] _ (by decide),
    splitOnChar_append ':' ['a', 'w', 's'] _ (by decide),
    splitOnChar_append ':' ['k', 'm', 's'] _ (by decide)]

theorem arn_valid (R A U : Str) (hR : R ≠ []) (hA : A ≠ []) (hU : U ≠ [])
    (hRc : ':' ∉ R) (hAc : ':' ∉ A) (hUc : ':' ∉ U) (hUs : '/' ∉ U) :
    arnToVaultKey (arnOf R A U) = (R ++ '_' :: A ++ '_' :: U, false) := by
  have hne : arnOf R A U ≠ [] := by simp [arnOf, arnLead]
  have hpre : arnLead.isPrefixOf (arnOf R A U) = true :=
    List.isPrefixOf_iff_prefix.mpr ⟨_, rfl⟩
  have hKc : ':' ∉ keyLit ++ ('/' :: U) := by
    simp only [List.mem_append, List.mem_cons]
    push_neg
    refine ⟨by decide, by decide, hUc⟩
  have hsplit : splitOnChar ':' (arnOf R A U) =
      [['a', 'r', 'n'], ['a', 'w', 's'], ['k', 'm', 's'], R, A,
        keyLit ++ ('/' :: U)] := by
    rw [arnOf, split_arnLead, splitOnChar_append ':' R _ hRc,
      splitOnChar_append ':' A _ hAc, splitOnChar_not_mem ':' _ hKc]
  have hkp : splitOnChar '/' (keyLit ++ ('/' :: U)) = [keyLit, U] := by
    rw [splitOnChar_append '/' keyLit _ (by decide),
      splitOnChar_not_mem '/' U hUs]
  rw [arnToVaultKey, if_neg hne, if_pos hpre, hsplit]
  simp [hkp, hR, hA, hU]

theorem arn_ok_shape (s r : Str) (h : arnToVaultKey s = (r, false)) :
    ∃ R A U, R ≠ [] ∧ A ≠ [] ∧ U ≠ [] ∧ ':' ∉ R ∧ ':' ∉ A ∧ ':' ∉ U ∧ '/' ∉ U ∧
      s = arnOf R A U ∧ r = R ++ '_' :: A ++ '_' :: U := by
  by_cases h0 : s = []
  · rw [arnToVaultKey, if_pos h0] at h
    simp at h
  rw [arnToVaultKey, if_neg h0] at h
  by_cases h1 : arnLead.isPrefixOf s
  case neg => simp [h1] at h
  rw [if_pos h1] at h
  obtain ⟨rest, hrest⟩ := List.isPrefixOf_iff_prefix.mp h1
  subst hrest
  rw [split_arnLead] at h
  by_cases h2 : (['a', 'r', 'n'] :: ['a', 'w', 's'] :: ['k', 'm', 's'] ::
      splitOnChar ':' rest).length = 6
  case neg => rw [if_neg h2] at h; simp at h
  rw [if_pos h2] at h
  have h3 : (splitOnChar ':' rest).length = 3 := by simpa using h2
  obtain ⟨R, A, K, hRAK⟩ := exists_len3 _ h3
  have hrest2 : rest = R ++ (':' :: (A ++ (':' :: K))) := by
    have hj := joinChar_splitOnChar ':' rest
    rw [hRAK] at hj
    rw [← hj]
    simp [joinChar_cons_cons, joinChar]
  have hRc : ':' ∉ R := not_mem_of_mem_splitOnChar ':' rest R (by simp [hRAK])
  have hAc : ':' ∉ A := not_mem_of_mem_splitOnChar ':' rest A (by simp [hRAK])
  have hKc : ':' ∉ K := not_mem_of_mem_splitOnChar ':' rest K (by simp [hRAK])
  rw [hRAK] at h
  simp only [List.getD] at h
  have e3 : (([['a', 'r', 'n'], ['a', 'w', 's'], ['k', 'm', 's'], R, A,
      K]).get? 3).getD [] = R := rfl
  have e4 : (([['a', 'r', 'n'], ['a', 'w', 's'], ['k', 'm', 's'], R, A,
      K]).get? 4).getD [] = A := rfl
  have e5 : (([['a', 'r', 'n'], ['a', 'w', 's'], ['k', 'm', 's'], R, A,
      K]).get? 5).getD [] = K := rfl
  rw [e3, e4, e5] at h
  by_cases h4 : (splitOnChar '/' K).length = 2 ∧ (splitOnChar '/' K).getD 0 [] = keyLit
  case neg =>
    rw [if_neg (by simpa [List.getD] using h4)] at h
    simp at h
  rw [if_pos (by simpa [List.getD] using h4)] at h
  obtain ⟨k0, U, hk0U⟩ := exists_len2 _ h4.1
  have hkey : k0 = keyLit := by
    have := h4.2
    rw [hk0U] at this
    simpa using this
  subst hkey
  have hK : K = keyLit ++ ('/' :: U) := by
    have hj := joinChar_splitOnChar '/' K
    rw [hk0U] at hj
    rw [← hj]
    simp [joinChar_cons_cons, joinChar]
  have hUs : '/' ∉ U := not_mem_of_mem_splitOnChar '/' K U (by simp [hk0U])
  have hUc : ':' ∉ U := by
    intro hmem
    exact hKc (by simp [hK, hmem])
  rw [hk0U] at h
  have f1 : (([keyLit, U]).get? 1).getD [] = U := rfl
  rw [f1] at h
  by_cases h5 : R = [] ∨ A = [] ∨ U = []
  case pos =>
    rw [if_pos (by simpa using h5)] at h
    simp at h
  rw [if_neg (by simpa using h5)] at h
  push_neg at h5
  obtain ⟨hval, hflag⟩ := Prod.mk.injEq .. ▸ h
  refine ⟨R, A, U, h5.1, h5.2.1, h5.2.2, hRc, hAc, hUc, hUs, ?_, ?_⟩
  · rw [arnOf, hrest2, hK]
  · exact hval.symm

theorem arn_flag (s : Str) :
    arnToVaultKey s = ([], true) ∨ (arnToVaultKey s).2 = false := by
  simp only [arnToVaultKey]
  split_ifs <;> simp

theorem arn_err_empty (s : Str) (h : (arnToVaultKey s).2 = true) :
    (arnToVaultKey s).1 = [] := by
  rcases arn_flag s with h2 | h2
  · rw [h2]
  · rw [h2] at h
    cases h


theorem foldl_filter_acc (contents : List Content) (acc : List Content) :
    contents.foldl
      (fun acc obj => if metaSuffix.isSuffixOf obj.key then acc else acc ++ [obj]) acc
      = acc ++ contents.filter (fun c => !(metaSuffix.isSuffixOf c.key)) := by
  induction contents generalizing acc with
  | nil => simp
  | cons c t ih =>
    by_cases hc : metaSuffix.isSuffixOf c.key = true
    · rw [List.foldl_cons, if_pos hc, ih,
        List.filter_cons_of_neg (by simp [hc])]
    · have hc2 : metaSuffix.isSuffixOf c.key = false := by
        cases hb : metaSuffix.isSuffixOf c.key
        · rfl
        · exact absurd hb hc
      rw [List.foldl_cons, if_neg hc, ih,
        List.filter_cons_of_pos (by simp [hc2]), List.append_assoc]
      rfl

theorem FilterMetadataObjects_eq_filter (contents : List Content) :
    FilterMetadataObjects contents =
      contents.filter (fun c => !(metaSuffix.isSuffixOf c.key)) := by
  simpa [FilterMetadataObjects] using foldl_filter_acc contents []

/-- C1 counterexample: the inbound header set carries the non-deny-listed
header "Host" with value "a" together with a lower-cased "host" entry
scanned later; the outbound request built by `copyHeaders` holds no
header named "Host" with value "a" — the captured host "b" overwrote it.
So the copy is not value-preserving for every inbound header. -/
theorem claim_c1_counterexample :
    isHopByHopHeader hostLit = false ∧
    hLookup hostLit [(hostLit, [['a']]), (hostFoldLit, [['b']])] = some [['a']] ∧
    List.all
      (copyHeaders demoReq [(hostLit, [['a']]), (hostFoldLit, [['b']])]).header
      (fun e => !(e.1 == hostLit && e.2 == [['a']])) = true := by
  decide

/-- C1 amended: for every inbound header (unique names, as in a Go map)
whose name is not deny-listed, the outbound request built by
`copyHeaders` carries a header under the byte-for-byte identical name
with the inbound first value — except that the entry literally named
"Host" is finally overwritten with the captured case-insensitive host
value, so its value is only preserved when it coincides with the capture
(or no host was captured). -/
theorem claim_c1_amended (req : OutReq) (hs : Headers) (k v : Str)
    (rest : List Str) (hreq : req.header = [])
    (hnd : (hs.map Prod.fst).Nodup)
    (hv : hLookup k hs = some (v :: rest))
    (hdeny : isHopByHopHeader k = false)
    (hhost : k = hostLit → capturedHost [] hs = v ∨ capturedHost [] hs = []) :
    hLookup k (copyHeaders req hs).header = some [v] :=
  copyHeaders_lookup_first req hs k v rest hreq hnd hv hdeny hhost

/-- C1 witness: the exact casing "X-Amz-Date" survives the copy with its
value. -/
theorem claim_c1_witness :
    hLookup "X-Amz-Date".toList
      (copyHeaders demoReq
        [("X-Amz-Date".toList, ["20240101T000000Z".toList])]).header
      = some ["20240101T000000Z".toList] :=
  claim_c1_amended demoReq
    [("X-Amz-Date".toList, ["20240101T000000Z".toList])]
    "X-Amz-Date".toList "20240101T000000Z".toList [] rfl
    (by decide) (by decide) (by decide) (by decide)

/-- C2: `ARNToVaultKey` equals the reference mapping.  Valid shapes
`arn:aws:kms:R:A:key/U` (non-empty colon-free R and A, non-empty
colon-free slash-free U, which is exactly the 6-colon-part/2-slash-part
condition) map to `R_A_U` with no error; a success implies the input had
that shape; every error carries the empty string; and every input
without the shape is an error with the empty string.  The Lean function
is pure by construction, matching the purity clause. -/
theorem claim_c2_arn_mapping :
    (∀ R A U : Str, R ≠ [] → A ≠ [] → U ≠ [] →
      ':' ∉ R → ':' ∉ A → ':' ∉ U → '/' ∉ U →
      arnToVaultKey (arnOf R A U) = (R ++ '_' :: A ++ '_' :: U, false)) ∧
    (∀ s r : Str, arnToVaultKey s = (r, false) →
      ∃ R A U, R ≠ [] ∧ A ≠ [] ∧ U ≠ [] ∧ ':' ∉ R ∧ ':' ∉ A ∧ ':' ∉ U ∧
        '/' ∉ U ∧ s = arnOf R A U ∧ r = R ++ '_' :: A ++ '_' :: U) ∧
    (∀ s : Str, (arnToVaultKey s).2 = true → (arnToVaultKey s).1 = []) ∧
    (∀ s : Str,
      (¬ ∃ R A U, R ≠ [] ∧ A ≠ [] ∧ U ≠ [] ∧ ':' ∉ R ∧ ':' ∉ A ∧ ':' ∉ U ∧
        '/' ∉ U ∧ s = arnOf R A U) →
      arnToVaultKey s = ([], true)) := by
  refine ⟨arn_valid, arn_ok_shape, arn_err_empty, ?_⟩
  intro s hno
  rcases arn_flag s with h | h
  · exact h
  · have hx : arnToVaultKey s = ((arnToVaultKey s).1, false) := by
      rw [← h]
    obtain ⟨R, A, U, h1, h2, h3, h4, h5, h6, h7, h8, _⟩ :=
      arn_ok_shape s (arnToVaultKey s).1 hx
    exact absurd ⟨R, A, U, h1, h2, h3, h4, h5, h6, h7, h8⟩ hno

/-- C2 witness: the repository's own test vector. -/
theorem claim_c2_witness :
    arnToVaultKey (arnOf "us-east-1".toList "123456789012".toList
      "12345678-1234-1234-1234-123456789012".toList)
      = ("us-east-1".toList ++ '_' :: "123456789012".toList ++
          '_' :: "12345678-1234-1234-1234-123456789012".toList, false) :=
  claim_c2_arn_mapping.1 "us-east-1".toList "123456789012".toList
    "12345678-1234-1234-1234-123456789012".toList
    (by decide) (by decide) (by decide) (by decide) (by decide) (by decide)
    (by decide)

/-- C3: when the inbound header set has exactly one case-insensitive host
entry with non-empty first value h, and the backend URL's own authority
differs from h, the outbound request's transport-level host and its raw
"Host" header entry both equal h, not the endpoint-derived value. -/
theorem claim_c3_host_override (e p : Str) (b : Option Nat) (hs : Headers)
    (q : Option Str) (k h0 : Str) (rest : List Str)
    (hone : hs.filter (fun x => eqFold x.1 hostFoldLit) = [(k, h0 :: rest)])
    (hne : h0 ≠ [])
    (hend : hostOfUrl (fwdUrl e p q) ≠ h0) :
    (forwardRequest e p b hs q).host = h0 ∧
    hLookup hostLit (forwardRequest e p b hs q).header = some [h0] ∧
    (forwardRequest e p b hs q).host ≠ hostOfUrl (fwdUrl e p q) := by
  have hch : capturedHost [] hs = h0 := capturedHost_unique hs [] k h0 rest hone
  have hhost : (forwardRequest e p b hs q).host = h0 := by
    rw [forwardRequest_host, copyHeaders_host, hch, if_neg hne]
  refine ⟨hhost, ?_, ?_⟩
  · rw [forwardRequest_lookup e p b hs q hostLit (by decide) (by decide)
      (by decide) (by decide)]
    rw [copyHeaders_header, hch, if_neg hne]
    exact hLookup_hSetEntry_self hostLit [h0] _
  · rw [hhost]
    exact fun hc => hend hc.symm

/-- C3 witness: inbound Host "s3.example.com" overrides the backend host
"backend:9000". -/
theorem claim_c3_witness :
    (forwardRequest "http://backend:9000".toList "/b".toList none
      [(hostLit, ["s3.example.com".toList])] none).host
      = "s3.example.com".toList ∧
    hLookup hostLit
      (forwardRequest "http://backend:9000".toList "/b".toList none
        [(hostLit, ["s3.example.com".toList])] none).header
      = some ["s3.example.com".toList] := by
  have h := claim_c3_host_override "http://backend:9000".toList "/b".toList
    none [(hostLit, ["s3.example.com".toList])] none hostLit
    "s3.example.com".toList [] (by decide) (by decide) (by decide)
  exact ⟨h.1, h.2.1⟩

/-- C4 counterexample: the inbound header "x-forwarded-proto" is a
case-variant of X-Forwarded-Proto (an `X-Forwarded-*` scheme-hint name),
yet the outbound request still carries it: `copyHeaders` stored it under
its original lower-case spelling and `Header.Del` only removes the
canonical spelling. -/
theorem claim_c4_counterexample :
    eqFold "x-forwarded-proto".toList xfpLit = true ∧
    hLookup "x-forwarded-proto".toList
      (forwardRequest "http://b".toList "/p".toList none
        [("x-forwarded-proto".toList, ["https".toList])] none).header
      = some ["https".toList] := by
  decide

/-- C4 amended: every inbound header matching the seventeen enumerated
deny-list names under any casing is absent from the outbound request,
and the three scheme-hint headers are additionally absent under their
canonical spellings (only; other spellings and other `X-Forwarded-*` or
`Cf-*` names are forwarded, as the counterexample shows). -/
theorem claim_c4_amended (e p : Str) (b : Option Nat) (hs : Headers)
    (q : Option Str) (k : Str) :
    (isHopByHopHeader k = true →
      hLookup k (forwardRequest e p b hs q).header = none) ∧
    hLookup xfpLit (forwardRequest e p b hs q).header = none ∧
    hLookup xfsLit (forwardRequest e p b hs q).header = none ∧
    hLookup xsLit (forwardRequest e p b hs q).header = none := by
  refine ⟨?_, ?_, ?_, ?_⟩
  · intro hk
    have h1 : k ≠ clLit := by
      intro h
      rw [h] at hk
      exact absurd hk (by decide)
    have h2 : k ≠ xfpLit := by
      intro h
      rw [h] at hk
      exact absurd hk (by decide)
    have h3 : k ≠ xfsLit := by
      intro h
      rw [h] at hk
      exact absurd hk (by decide)
    have h4 : k ≠ xsLit := by
      intro h
      rw [h] at hk
      exact absurd hk (by decide)
    rw [forwardRequest_lookup e p b hs q k h1 h2 h3 h4]
    exact copyHeaders_lookup_denied (fwdReq0 e p b q) hs k rfl hk
  · rw [forwardRequest_header_eq, hDelH, hDelH, hDelH, canon_xfp, canon_xfs,
      canon_xs]
    rw [hLookup_hDel_ne _ _ _ (by decide), hLookup_hDel_ne _ _ _ (by decide)]
    exact hLookup_hDel_self xfpLit _
  · rw [forwardRequest_header_eq, hDelH, hDelH, hDelH, canon_xfp, canon_xfs,
      canon_xs]
    rw [hLookup_hDel_ne _ _ _ (by decide)]
    exact hLookup_hDel_self xfsLit _
  · rw [forwardRequest_header_eq, hDelH, hDelH, hDelH, canon_xfp, canon_xfs,
      canon_xs]
    exact hLookup_hDel_self xsLit _

/-- C4 witness: a denied name in mixed case never reaches the backend. -/
theorem claim_c4_witness :
    hLookup "keep-alive".toList
      (forwardRequest "http://b".toList "/p".toList none
        [("keep-alive".toList, ["300".toList])] none).header = none :=
  (claim_c4_amended "http://b".toList "/p".toList none
    [("keep-alive".toList, ["300".toList])] none "keep-alive".toList).1
    (by decide)

/-- C5: an inbound header literally named "Content-Length" with non-empty
first value n is re-applied to the outbound request: the outbound header
map carries "Content-Length" = n, and when n parses as a 64-bit decimal
the numeric ContentLength field is set to it (instead of the
body-derived value). -/
theorem claim_c5_content_length (e p : Str) (b : Option Nat) (hs : Headers)
    (q : Option Str) (v : Str) (rest : List Str)
    (hv : hLookup clLit hs = some (v :: rest)) (hvne : v ≠ []) :
    hLookup clLit (forwardRequest e p b hs q).header = some [v] ∧
    ∀ n : Int, parseInt64 v = some n →
      (forwardRequest e p b hs q).contentLength = n := by
  have hget : hGet clLit hs = v := by
    rw [hGet, canon_cl, hv]
  constructor
  · rw [forwardRequest_header_eq, hDelH, hDelH, hDelH, canon_xfp, canon_xfs,
      canon_xs]
    rw [hLookup_hDel_ne _ _ _ (by decide), hLookup_hDel_ne _ _ _ (by decide),
      hLookup_hDel_ne _ _ _ (by decide)]
    rw [if_neg (by rw [hget]; exact hvne), hSet, canon_cl, hget]
    exact hLookup_hSetEntry_self clLit [v] _
  · intro n hn
    exact forwardRequest_contentLength_parsed e p b hs q n
      (by rw [hget]; exact hvne) (by rw [hget]; exact hn)

/-- C5 witness: Content-Length "10" survives as header and numeric field
even though the body reader reports 7 bytes. -/
theorem claim_c5_witness :
    hLookup clLit
      (forwardRequest "http://b".toList "/k".toList (some 7)
        [(clLit, ["10".toList])] none).header = some ["10".toList] ∧
    (forwardRequest "http://b".toList "/k".toList (some 7)
      [(clLit, ["10".toList])] none).contentLength = 10 := by
  have h := claim_c5_content_length "http://b".toList "/k".toList (some 7)
    [(clLit, ["10".toList])] none "10".toList [] (by decide) (by decide)
  exact ⟨h.1, h.2 10 (by decide)⟩

/-- C6 counterexample: the forwarded-protocol edge hint says https and the
backend endpoint is plain HTTP, yet the outbound URL stays on the
http endpoint — `ForwardRequest` never rewrites the scheme. -/
theorem claim_c6_counterexample :
    (forwardRequest "http://backend:9000".toList "/b/o".toList none
      [(xfpLit, ["https".toList])] none).url
      = "http://backend:9000/b/o".toList ∧
    "http://backend:9000/b/o".toList ≠ "https://backend:9000/b/o".toList := by
  decide

/-- C6 amended: the outbound URL is always the configured endpoint plus
path (plus "?" and the query string when non-empty), independent of any
edge scheme hints in the headers; the scheme-hint headers are instead
deleted (in canonical spelling) before forwarding. -/
theorem claim_c6_amended (e p : Str) (b : Option Nat) (hs : Headers)
    (q : Option Str) :
    (forwardRequest e p b hs q).url =
      e ++ p ++
        (match q with
         | some qs => if qs ≠ [] then '?' :: qs else []
         | none => []) := by
  rw [forwardRequest_url]
  rfl

/-- C7 counterexample: a backend status of 300 (not a 2xx) whose body
deserializes fine still yields a record, so "only a 2xx response with a
well-formed body yields a record" fails on the code. -/
theorem claim_c7_counterexample :
    metaGet demoDecode 300 [] = .ok demoMeta ∧ ¬(200 ≤ 300 ∧ 300 ≤ 299) := by
  constructor
  · rfl
  · omega

/-- C7 amended: `Get` maps the backend status exactly: NotFound iff 404,
AccessDenied iff 403, the generic failure for any other status of at
least 400, an unmarshal error for a sub-400 status whose body fails
deserialization, and a record exactly for a sub-400 status (not only
2xx) with a well-formed body. -/
theorem claim_c7_amended (dec : Str → Option ObjectMetadata) (st : Nat)
    (body : Str) :
    (metaGet dec st body = .error .notFound ↔ st = 404) ∧
    (metaGet dec st body = .error .accessDenied ↔ st = 403) ∧
    (st ≥ 400 → st ≠ 404 → st ≠ 403 →
      metaGet dec st body = .error (.getFailed st)) ∧
    (st < 400 → dec body = none →
      metaGet dec st body = .error .unmarshalFailed) ∧
    (∀ m, metaGet dec st body = .ok m ↔ (st < 400 ∧ dec body = some m)) := by
  unfold metaGet
  by_cases h4 : st = 404
  · subst h4
    simp
  by_cases h3 : st = 403
  · subst h3
    simp
  rw [if_neg h4, if_neg h3]
  by_cases hge : st ≥ 400
  · rw [if_pos hge]
    refine ⟨by simp [h4], by simp [h3], fun _ _ _ => rfl,
      fun hlt _ => absurd hlt (by omega), ?_⟩
    intro m
    constructor
    · intro hcon
      cases hcon
    · intro hcon
      exact absurd hcon.1 (by omega)
  · have hlt : st < 400 := by omega
    rw [if_neg hge]
    cases hdec : dec body with
    | none =>
      refine ⟨by simp [h4], by simp [h3],
        fun hge2 _ _ => absurd hge2 (by omega), fun _ _ => rfl, ?_⟩
      intro m
      constructor
      · intro hcon
        cases hcon
      · rintro ⟨-, hcon⟩
        cases hcon
    | some m0 =>
      refine ⟨by simp [h4], by simp [h3],
        fun hge2 _ _ => absurd hge2 (by omega), ?_, ?_⟩
      · intro _ hnone
        cases hnone
      · intro m
        constructor
        · intro hm
          injection hm with hm2
          exact ⟨hlt, by rw [hm2]⟩
        · rintro ⟨-, hm⟩
          injection hm with hm2
          rw [hm2]

/-- C7 witness: 404 yields exactly NotFound. -/
theorem claim_c7_witness :
    metaGet demoDecode 404 [] = .error .notFound :=
  (claim_c7_amended demoDecode 404 []).1.mpr rfl

/-- C8: listing enrichment degrades per entry: the filter removes exactly
the ".metadata"-suffixed entries preserving order (it equals
`List.filter`), enrichment keeps the length (never fails as a whole),
and per surviving index the entry's size and ETag are overwritten on a
successful get and untouched on any get error. -/
theorem claim_c8_enrichment (get : Str → Except MetaErr ObjectMetadata)
    (contents : List Content) :
    FilterMetadataObjects contents =
      contents.filter (fun c => !(metaSuffix.isSuffixOf c.key)) ∧
    (∀ c ∈ FilterMetadataObjects contents,
      metaSuffix.isSuffixOf c.key = false) ∧
    (enrichContents get contents).length =
      (FilterMetadataObjects contents).length ∧
    (∀ i c, (FilterMetadataObjects contents).get? i = some c →
      (∀ m, get c.key = .ok m → (enrichContents get contents).get? i =
        some { c with size := m.contentLength, etag := m.etag }) ∧
      (∀ er, get c.key = .error er →
        (enrichContents get contents).get? i = some c)) := by
  have hf := FilterMetadataObjects_eq_filter contents
  refine ⟨hf, ?_, ?_, ?_⟩
  · intro c hc
    rw [hf] at hc
    simpa using (List.mem_filter.mp hc).2
  · simp [enrichContents]
  · intro i c hic
    constructor
    · intro m hm
      rw [enrichContents, List.get?_map, hic]
      simp [hm]
    · intro er he
      rw [enrichContents, List.get?_map, hic]
      simp [he]

/-- C8 witness: the sidecar entry is filtered out; the managed entry gets
the plaintext size/ETag, the unmanaged entry stays untouched, and the
listing still succeeds. -/
theorem claim_c8_witness :
    (enrichContents demoGet demoContents).get? 0 =
      some { demoC1 with
        size := demoMeta.contentLength,
        etag := demoMeta.etag } ∧
    (enrichContents demoGet demoContents).get? 1 = some demoC2 := by
  have h := claim_c8_enrichment demoGet demoContents
  have ha := (h.2.2.2 0 demoC1 (by rfl)).1 demoMeta (by rfl)
  have hb := (h.2.2.2 1 demoC2 (by rfl)).2 .notFound (by rfl)
  exact ⟨ha, hb⟩

/-- C9 counterexample: the inbound name "Host" maps to two values; the
claim says exactly the first value "a" survives, but the outbound entry
ends up holding "b", captured from the later lower-cased host entry. -/
theorem claim_c9_counterexample :
    hLookup hostLit [(hostLit, [['a'], ['x']]), (hostFoldLit, [['b']])]
      = some [['a'], ['x']] ∧
    hLookup hostLit
      (copyHeaders demoReq
        [(hostLit, [['a'], ['x']]), (hostFoldLit, [['b']])]).header
      = some [['b']] ∧
    ([['b']] : List Str) ≠ [['a']] := by
  decide

/-- C9 amended: for every non-deny-listed inbound name other than the
literal "Host", exactly the first value survives; and the outbound
request built by `copyHeaders` never carries a multi-valued header: every
outbound entry holds exactly one value. -/
theorem claim_c9_amended (req : OutReq) (hs : Headers) (k v : Str)
    (rest : List Str) (hreq : req.header = [])
    (hnd : (hs.map Prod.fst).Nodup)
    (hv : hLookup k hs = some (v :: rest))
    (hdeny : isHopByHopHeader k = false)
    (hk : k ≠ hostLit) :
    hLookup k (copyHeaders req hs).header = some [v] ∧
    ∀ e ∈ (copyHeaders req hs).header, e.2.length = 1 :=
  ⟨copyHeaders_lookup_first req hs k v rest hreq hnd hv hdeny
      (fun h => absurd h hk),
   copyHeaders_singletons req hs hreq⟩

/-- C9 witness: of the two inbound values of "X-Custom" only the first is
forwarded, and every outbound entry is single-valued. -/
theorem claim_c9_witness :
    hLookup "X-Custom".toList
      (copyHeaders demoReq
        [("X-Custom".toList, ["v1".toList, "v2".toList])]).header
      = some ["v1".toList] ∧
    ∀ e ∈ (copyHeaders demoReq
      [("X-Custom".toList, ["v1".toList, "v2".toList])]).header,
      e.2.length = 1 :=
  claim_c9_amended demoReq [("X-Custom".toList, ["v1".toList, "v2".toList])]
    "X-Custom".toList "v1".toList ["v2".toList] rfl (by decide) (by decide)
    (by decide) (by decide)

/-- C10: when the KMS-ARN header is present and valid and the backend PUT
answers below 400, `PutObject` forwards the body bytes unmodified, sets
the two SSE advertisement headers (`aws:kms` and the request ARN) on the
client response, and its behaviour is independent of the vault encrypt
operation — it is never called. -/
theorem claim_c10_sse_advertised (v : VaultOps)
    (backend : Str → Str → Option BackendResp)
    (bucket key arn : Str) (lines : List (Str × Str)) (body : Str)
    (resp : BackendResp)
    (hb : bucket ≠ []) (hk : key ≠ [])
    (harn : getKMSKeyARN lines = some arn)
    (hvalid : (v.arnToKey arn).2 = false)
    (hresp : backend ('/' :: bucket ++ '/' :: key) body = some resp)
    (hok : resp.status < 400) :
    (putObject v backend bucket key lines body).forwardedBody = some body ∧
    hLookup sseLit (putObject v backend bucket key lines body).responseHeaders
      = some ["aws:kms".toList] ∧
    hLookup sseKidLit
      (putObject v backend bucket key lines body).responseHeaders
      = some [arn] ∧
    ∀ enc2, putObject { arnToKey := v.arnToKey, encrypt := enc2 } backend
      bucket key lines body = putObject v backend bucket key lines body := by
  have hnot : ¬(bucket = [] ∨ key = []) := by
    push_neg
    exact ⟨hb, hk⟩
  have hflag : ¬((v.arnToKey arn).2 = true) := by
    rw [hvalid]
    exact Bool.false_ne_true
  have hlt : ¬(resp.status ≥ 400) := by omega
  have hmain : putObject v backend bucket key lines body =
      ⟨resp.status,
        cSet sseKidLit arn (cSet sseLit "aws:kms".toList
          (resp.headers.foldl
            (fun acc e =>
              match e.2 with
              | [] => acc
              | v0 :: _ => cSet e.1 v0 acc) [])),
        some body⟩ := by
    simp only [putObject, if_neg hnot, harn, if_neg hflag, hresp, if_neg hlt]
  refine ⟨by rw [hmain], ?_, ?_, ?_⟩
  · rw [hmain]
    simp only [cSet]
    rw [hLookup_hSetEntry_ne _ _ _ _ (by decide)]
    exact hLookup_hSetEntry_self sseLit ["aws:kms".toList] _
  · rw [hmain]
    simp only [cSet]
    exact hLookup_hSetEntry_self sseKidLit [arn] _
  · intro enc2
    rfl

/-- C10 witness: a concrete accepted PUT carries the advertisement headers
and the unmodified body. -/
theorem claim_c10_witness :
    (putObject demoVault demoBackend ['b'] ['k'] demoLines
      "0123456789".toList).forwardedBody = some "0123456789".toList ∧
    hLookup sseKidLit
      (putObject demoVault demoBackend ['b'] ['k'] demoLines
        "0123456789".toList).responseHeaders = some [demoArn] := by
  have h := claim_c10_sse_advertised demoVault demoBackend ['b'] ['k']
    demoArn demoLines "0123456789".toList
    { status := 200, headers := [("ETag".toList, ["\"x\"".toList])] }
    (by decide) (by decide) (by rfl) (by decide) (by rfl) (by decide)
  exact ⟨h.1, h.2.2.1⟩
